import Mathlib

/-!
Verification of the RAG question-answering service (`main.py`).

Python strings are embedded as `List Char` (a Python `str` is a sequence of
code points; `len`, indexing and concatenation agree with list operations).
Python's `str.strip()` is embedded with `Char.isWhitespace` in place of
`str.isspace` (they agree on the space, tab, newline and carriage-return
characters that can occur in the documents considered here).
External collaborators (MD5 hashing, the embedding model, the Qdrant vector
store's similarity search, the Hugging Face chat endpoint) are not part of
the repository's code; they enter the model either as function parameters or
as definitions modelled from the specification's contracts for them, and are
marked as such in their doc comments.
-/

namespace RagApp

/-- Drop leading whitespace, as Python `str.lstrip` (used to describe the
effect of `strip` on buffers that end in a non-whitespace character). -/
def lstrip (l : List Char) : List Char :=
  l.dropWhile Char.isWhitespace

/-- Python `str.strip()`: drop leading and trailing whitespace. -/
def strip (l : List Char) : List Char :=
  ((l.dropWhile Char.isWhitespace).reverse.dropWhile Char.isWhitespace).reverse

/-- Python `text.split(".")`: split on every occurrence of `'.'`; the result
always has one more element than the number of dots, so it is never empty
(`"".split(".") == [""]`). -/
def splitOnDot : List Char → List (List Char)
  | [] => [[]]
  | c :: rest =>
    if c = '.' then [] :: splitOnDot rest
    else
      match splitOnDot rest with
      | [] => [[c]]
      | f :: fs => (c :: f) :: fs

/-- Interleave the fragments with the `"."` the chunker re-appends after each
one: `dotJoin [a, b] = a ++ "." ++ b ++ "."`. -/
def dotJoin (ts : List (List Char)) : List Char :=
  (ts.map (fun t => t ++ ['.'])).flatten

/-- The accumulation loop of `chunk_text` (`main.py` lines 83-90): fold over
the sentence fragments, flushing the buffer `current` as a stripped chunk
whenever the next fragment no longer fits, and flush the non-empty final
buffer at the end (`if current:`). -/
def chunkLoop (maxLen : Nat) : List (List Char) → List (List Char) → List Char → List (List Char)
  | [], chunks, current =>
      if current = [] then chunks else chunks ++ [strip current]
  | s :: rest, chunks, current =>
      if current.length + s.length < maxLen then
        chunkLoop maxLen rest chunks (current ++ s ++ ['.'])
      else
        chunkLoop maxLen rest (chunks ++ [strip current]) (s ++ ['.'])

/-- `chunk_text` (`main.py` lines 77-91): split on `"."` and accumulate
fragments into chunks of bounded length.  The Python default `max_len=1500`
is passed explicitly by callers. -/
def chunk_text (text : List Char) (maxLen : Nat) : List (List Char) :=
  chunkLoop maxLen (splitOnDot text) [] []

/-- Replay of the chunker's grouping decisions, recording for each sentence
fragment the exact substring of it that survives into the flushed chunks: the
fragment that opens a buffer loses its leading whitespace to `strip`, every
other fragment is kept verbatim.  `curLen` tracks `len(current)` and
`isFirst` tracks `current == ""`. -/
def marks (maxLen : Nat) : List (List Char) → Nat → Bool → List (List Char)
  | [], _, _ => []
  | s :: rest, curLen, isFirst =>
    if curLen + s.length < maxLen then
      (if isFirst then lstrip s else s) :: marks maxLen rest (curLen + s.length + 1) false
    else
      lstrip s :: marks maxLen rest (s.length + 1) false

/-- A stored Qdrant point (`main.py` lines 148-153): the embedding vector and
the two payload fields the service reads back (`text`, `file_hash`).  Vector
components are embedded as rationals; the random UUID id is never read and
is omitted. -/
structure Record where
  vector : List ℚ
  text : List Char
  file_hash : List Char
deriving DecidableEq

/-- An uploaded file as `extract_text` sees it: the filename, the declared
media type (which the server never reads), the UTF-8 decoding of its raw
bytes, and the page texts `pdfplumber` would extract from it. -/
structure UploadFile where
  filename : List Char
  contentType : String
  txtContent : List Char
  pdfPages : List (List Char)
deriving DecidableEq

/-- A FastAPI `HTTPException`: status code plus detail message. -/
structure HTTPError where
  status : Nat
  detail : String
deriving DecidableEq

/-- Externally visible side effects of an upload: one embedding call on the
chunk list, one upsert of the produced points. -/
inductive ExtCall where
  | embed (texts : List (List Char))
  | upsert (count : Nat)
deriving DecidableEq

/-- Python `filename.endswith(suffix)`. -/
def endsWith (l suffix : List Char) : Bool :=
  suffix.reverse.isPrefixOf l.reverse

def txtSuffix : List Char := ['.', 't', 'x', 't']

def pdfSuffix : List Char := ['.', 'p', 'd', 'f']

/-- `extract_text` (`main.py` lines 61-75): dispatch on the filename suffix;
`.txt` gives the UTF-8 decoded bytes, `.pdf` gives the pdfplumber page texts
each followed by a newline, anything else raises a 400. -/
def extract_text (file : UploadFile) : Except HTTPError (List Char) :=
  if endsWith file.filename txtSuffix then
    .ok file.txtContent
  else if endsWith file.filename pdfSuffix then
    .ok ((file.pdfPages.map (fun p => p ++ ['\n'])).flatten)
  else
    .error ⟨400, "Only PDF or TXT supported"⟩

/-- Replace the declared media type of a file; used to state that extraction
never reads it. -/
def withContentType (file : UploadFile) (ct : String) : UploadFile :=
  ⟨file.filename, ct, file.txtContent, file.pdfPages⟩

/-- `upload_file` (`main.py` lines 128-157).  The MD5 digest (`compute_hash`)
and the embedding model are external collaborators and enter as the
parameters `hash` and `embed`; the Qdrant scroll backing the duplicate check
is modelled from the spec's Deduplication Guard contract: it scans the whole
existing record collection.  Returns the HTTP result together with the
external calls performed. -/
def upload_file (hash : List Char → List Char) (embed : List Char → List ℚ)
    (st : List Record) (file : UploadFile) :
    Except HTTPError (String × List Record) × List ExtCall :=
  match extract_text file with
  | .error e => (.error e, [])
  | .ok text =>
    let file_hash := hash text
    if st.any (fun pt => pt.file_hash == file_hash) then
      (.ok ("File already processed", st), [])
    else
      let chunks := chunk_text text 1500
      let embeddings := chunks.map embed
      let points := (chunks.zip embeddings).map (fun p => Record.mk p.2 p.1 file_hash)
      (.ok ("File processed and " ++ toString chunks.length ++ " chunks stored.",
            st ++ points),
       [ExtCall.embed chunks, ExtCall.upsert points.length])

structure ChatMessage where
  role : String
  content : List Char
deriving DecidableEq

/-- The chat-completion request body (`main.py` lines 105-113). -/
structure ChatPayload where
  model : String
  messages : List ChatMessage
  temperature : ℚ
  maxTokens : Nat
deriving DecidableEq

/-- A `requests.post` response; `content` holds
`resp.json()["choices"][0]["message"]["content"]` when the body is a
well-formed chat completion and `none` when any step of that extraction
would raise. -/
structure HttpResp where
  status : Nat
  text : List Char
  content : Option (List Char)
deriving DecidableEq

/-- An exception raised by `requests.post` itself (connection failure and the
like); it propagates out of `query_huggingface_chat` uncaught. -/
structure NetError where
  message : String
deriving DecidableEq

def system_prompt : String :=
  "You are a helpful assistant answering questions using the provided context.\nIf the answer is not contained in the context, say: \x27I don\x27t know.\x27\nDo not make up information. Be concise and clear."

/-- The exact payload `query_huggingface_chat` posts (`main.py` 105-113). -/
def mkChatPayload (question context : List Char) : ChatPayload :=
  ⟨"mistralai/Mistral-7B-Instruct-v0.2:featherless-ai",
   [⟨"system", system_prompt.data⟩,
    ⟨"user", "Context:\n".data ++ context ++ "\n\nQuestion: ".data ++ question⟩],
   7 / 10, 512⟩

/-- The string built by the `except` branch of `query_huggingface_chat`:
`f"Error: {resp.status_code} - {resp.text}"`. -/
def errorText (resp : HttpResp) : List Char :=
  "Error: ".data ++ (toString resp.status).data ++ " - ".data ++ resp.text

/-- `query_huggingface_chat` (`main.py` lines 93-119): post the payload once;
a well-formed reply is returned stripped, a malformed one becomes the
`"Error: status - text"` string, an exception from the post itself
propagates.  The second component records every payload posted. -/
def query_huggingface_chat (post : ChatPayload → Except NetError HttpResp)
    (question context : List Char) :
    Except NetError (List Char) × List ChatPayload :=
  let payload := mkChatPayload question context
  match post payload with
  | .error e => (.error e, [payload])
  | .ok resp =>
    match resp.content with
    | some c => (.ok (strip c), [payload])
    | none => (.ok (errorText resp), [payload])

/-- Ranking relation used by the vector store: `a` before `b` when `a`'s
vector scores at least as high against the query vector. -/
def simRel (sim : List ℚ → List ℚ → ℚ) (q : List ℚ) : Record → Record → Prop :=
  fun a b => sim q b.vector ≤ sim q a.vector

instance simRelDecidable (sim : List ℚ → List ℚ → ℚ) (q : List ℚ) :
    DecidableRel (simRel sim q) :=
  fun a b => inferInstanceAs (Decidable (sim q b.vector ≤ sim q a.vector))

instance simRelTotal (sim : List ℚ → List ℚ → ℚ) (q : List ℚ) :
    IsTotal Record (simRel sim q) :=
  ⟨fun a b => le_total (sim q b.vector) (sim q a.vector)⟩

instance simRelTrans (sim : List ℚ → List ℚ → ℚ) (q : List ℚ) :
    IsTrans Record (simRel sim q) :=
  ⟨fun _ _ _ hab hbc => le_trans hbc hab⟩

/-- Modelled from the spec: the Qdrant `search` call is an external
collaborator; per the Vector Store contract it returns the `k` stored
records most similar to the query vector by cosine similarity, most-similar
first, fewer than `k` when the collection holds fewer, none when it is
empty.  The similarity score is the parameter `sim`. -/
def qdrantSearch (sim : List ℚ → List ℚ → ℚ) (st : List Record)
    (queryVector : List ℚ) (k : Nat) : List Record :=
  (List.insertionSort (simRel sim queryVector) st).take k

/-- `ask` (`main.py` lines 159-176): embed the question, search the top 3
records, short-circuit when nothing is retrieved, otherwise join the
retrieved texts with newlines and query the chat model.  Returns the
`(answer, context)` response (or the propagated network failure) together
with the chat payloads posted. -/
def ask (sim : List ℚ → List ℚ → ℚ) (embed : List Char → List ℚ)
    (post : ChatPayload → Except NetError HttpResp)
    (st : List Record) (question : List Char) :
    Except NetError (List Char × List Char) × List ChatPayload :=
  let q_emb := embed question
  let search := qdrantSearch sim st q_emb 3
  if search.isEmpty then
    (.ok ("No relevant context found.".data, []), [])
  else
    let context := List.intercalate ['\n'] (search.map (fun hit => hit.text))
    match query_huggingface_chat post question context with
    | (.error e, calls) => (.error e, calls)
    | (.ok answer, calls) => (.ok (answer, context), calls)

/-- Concrete sample file `"a.txt"` with content `"hi"`, used in witnesses. -/
def demoFile : UploadFile := ⟨['a', '.', 't', 'x', 't'], "text/plain", ['h', 'i'], []⟩

/-- The record the upload of `demoFile` stores under the identity hash and
the constant-empty embedding, used in witnesses. -/
def demoRecord : Record := ⟨[], ['h', 'i', '.'], ['h', 'i']⟩

/-- Concrete sample file `"d.csv"`, used in witnesses. -/
def demoCsv : UploadFile := ⟨['d', '.', 'c', 's', 'v'], "text/csv", [], []⟩

/-- Concrete sample file `"a.TXT"`, used in witnesses. -/
def demoUpper : UploadFile := ⟨['a', '.', 'T', 'X', 'T'], "text/plain", [], []⟩

/-- Concrete malformed chat response (status 500, no parsable content), used
in witnesses. -/
def demoResp : HttpResp := ⟨500, ['b', 'a', 'd'], none⟩

end RagApp

namespace RagApp

theorem splitOnDot_ne_nil (l : List Char) : splitOnDot l ≠ [] := by
  cases l with
  | nil => simp [splitOnDot]
  | cons c rest =>
    simp only [splitOnDot]
    split
    · simp
    · split
      · simp
      · simp

theorem mem_splitOnDot_not_dot (l : List Char) :
    ∀ s ∈ splitOnDot l, '.' ∉ s := by
  induction l with
  | nil =>
    intro s hs
    simp [splitOnDot] at hs
    simp [hs]
  | cons c rest ih =>
    intro s hs
    simp only [splitOnDot] at hs
    by_cases hc : c = '.'
    · rw [if_pos hc] at hs
      rcases List.mem_cons.mp hs with h | h
      · simp [h]
      · exact ih s h
    · rw [if_neg hc] at hs
      rcases hsplit : splitOnDot rest with _ | ⟨f, fs⟩
      · exact absurd hsplit (splitOnDot_ne_nil rest)
      · rw [hsplit] at hs
        rcases List.mem_cons.mp hs with h | h
        · subst h
          intro hmem
          rcases List.mem_cons.mp hmem with h | h
          · exact hc h.symm
          · exact ih f (hsplit ▸ List.mem_cons_self f fs) h
        · exact ih s (hsplit ▸ List.mem_cons_of_mem f h)

theorem splitOnDot_of_not_mem {l : List Char} (h : '.' ∉ l) :
    splitOnDot l = [l] := by
  induction l with
  | nil => rfl
  | cons c rest ih =>
    have hc : c ≠ '.' := fun hc => h (hc ▸ List.mem_cons_self c rest)
    have hrest : '.' ∉ rest := fun hm => h (List.mem_cons_of_mem c hm)
    simp only [splitOnDot, if_neg hc, ih hrest]

theorem splitOnDot_append_dot {a : List Char} (r : List Char) (h : '.' ∉ a) :
    splitOnDot (a ++ '.' :: r) = a :: splitOnDot r := by
  induction a with
  | nil => simp [splitOnDot]
  | cons c a ih =>
    have hc : c ≠ '.' := fun hc => h (hc ▸ List.mem_cons_self c a)
    have ha : '.' ∉ a := fun hm => h (List.mem_cons_of_mem c hm)
    simp only [List.cons_append, splitOnDot, if_neg hc, List.append_eq, ih ha]

theorem dot_not_whitespace : ('.' : Char).isWhitespace = false := by decide

theorem dropWhile_ws_append_dot (a b : List Char) :
    (a ++ '.' :: b).dropWhile Char.isWhitespace
      = a.dropWhile Char.isWhitespace ++ '.' :: b := by
  induction a with
  | nil => simp [List.dropWhile, dot_not_whitespace]
  | cons c a ih =>
    cases hws : Char.isWhitespace c with
    | true => simpa [List.dropWhile_cons, hws] using ih
    | false => simp [List.dropWhile_cons, hws]

theorem lstrip_append_dot (a b : List Char) :
    lstrip (a ++ '.' :: b) = lstrip a ++ '.' :: b :=
  dropWhile_ws_append_dot a b

theorem strip_append_dot (a : List Char) :
    strip (a ++ ['.']) = lstrip a ++ ['.'] := by
  have h1 : (a ++ ['.']).dropWhile Char.isWhitespace = lstrip a ++ ['.'] :=
    dropWhile_ws_append_dot a []
  simp only [strip, h1]
  rw [List.reverse_append]
  simp only [List.reverse_cons, List.reverse_nil, List.nil_append, List.singleton_append,
    List.dropWhile_cons, dot_not_whitespace, Bool.false_eq_true, if_false]
  simp [lstrip]

theorem strip_eq_lstrip {current : List Char}
    (h : current = [] ∨ ∃ a, current = a ++ ['.']) :
    strip current = lstrip current := by
  rcases h with h | ⟨a, h⟩
  · subst h; rfl
  · subst h
    rw [strip_append_dot]
    rw [show (a ++ ['.'] : List Char) = a ++ '.' :: [] from rfl, lstrip_append_dot]

theorem strip_lstrip (l : List Char) : strip (lstrip l) = strip l := by
  simp only [strip, lstrip, List.dropWhile_idempotent]

theorem strip_length_le (l : List Char) : (strip l).length ≤ l.length := by
  simp only [strip, List.length_reverse]
  calc ((l.dropWhile Char.isWhitespace).reverse.dropWhile Char.isWhitespace).length
      ≤ (l.dropWhile Char.isWhitespace).reverse.length :=
        (List.dropWhile_sublist _).length_le
    _ = (l.dropWhile Char.isWhitespace).length := List.length_reverse _
    _ ≤ l.length := (List.dropWhile_sublist _).length_le

theorem strip_append_dot_ne_nil (a : List Char) : strip (a ++ ['.']) ≠ [] := by
  rw [strip_append_dot]; simp

theorem strip_nil : strip [] = [] := rfl

theorem dotJoin_cons (t : List Char) (ts : List (List Char)) :
    dotJoin (t :: ts) = (t ++ ['.']) ++ dotJoin ts := by
  simp [dotJoin]

theorem dotJoin_nil : dotJoin [] = [] := rfl

theorem splitOnDot_dotJoin (ts : List (List Char)) (h : ∀ t ∈ ts, '.' ∉ t) :
    splitOnDot (dotJoin ts) = ts ++ [[]] := by
  induction ts with
  | nil => rfl
  | cons t ts ih =>
    have ht : '.' ∉ t := h t (List.mem_cons_self t ts)
    have hts : ∀ u ∈ ts, '.' ∉ u := fun u hu => h u (List.mem_cons_of_mem t hu)
    rw [dotJoin_cons, show (t ++ ['.']) ++ dotJoin ts = t ++ '.' :: dotJoin ts by simp,
      splitOnDot_append_dot _ ht, ih hts, List.cons_append]

theorem chunkLoop_append (m : Nat) (frags : List (List Char)) :
    ∀ (ch₁ ch₂ : List (List Char)) (cur : List Char),
      chunkLoop m frags (ch₁ ++ ch₂) cur = ch₁ ++ chunkLoop m frags ch₂ cur := by
  induction frags with
  | nil =>
    intro ch₁ ch₂ cur
    simp only [chunkLoop]
    split
    · rfl
    · rw [List.append_assoc]
  | cons s rest ih =>
    intro ch₁ ch₂ cur
    simp only [chunkLoop]
    split
    · exact ih ch₁ ch₂ _
    · rw [List.append_assoc]
      exact ih ch₁ (ch₂ ++ [strip cur]) _

theorem chunkLoop_ne_nil (m : Nat) (frags : List (List Char)) :
    ∀ (ch : List (List Char)) (cur : List Char), (∃ a, cur = a ++ ['.']) →
      chunkLoop m frags ch cur ≠ [] := by
  induction frags with
  | nil =>
    intro ch cur ⟨a, ha⟩
    subst ha
    simp only [chunkLoop]
    rw [if_neg (by simp)]
    simp
  | cons s rest ih =>
    intro ch cur hcur
    simp only [chunkLoop]
    split
    · exact ih ch (cur ++ s ++ ['.']) ⟨cur ++ s, by simp⟩
    · exact ih (ch ++ [strip cur]) (s ++ ['.']) ⟨s, rfl⟩

theorem isEmpty_append_dot (a : List Char) : (a ++ ['.']).isEmpty = false := by
  cases a <;> rfl

theorem lstrip_append_step (current s : List Char)
    (hcur : current = [] ∨ ∃ a, current = a ++ ['.']) :
    lstrip (current ++ s ++ ['.'])
      = lstrip current ++ (if current.isEmpty then lstrip s else s) ++ ['.'] := by
  rcases hcur with h | ⟨a, h⟩
  · subst h
    simp only [List.nil_append, List.isEmpty_nil, if_true]
    rw [show (s ++ ['.'] : List Char) = s ++ '.' :: [] from rfl, lstrip_append_dot]
    rfl
  · subst h
    rw [isEmpty_append_dot, if_neg (by simp)]
    rw [show (a ++ ['.']) ++ s ++ ['.'] = a ++ '.' :: (s ++ ['.']) by simp,
      lstrip_append_dot,
      show (a ++ ['.'] : List Char) = a ++ '.' :: [] from rfl, lstrip_append_dot]
    simp

theorem chunkLoop_flatten (m : Nat) (frags : List (List Char)) :
    ∀ (chunks : List (List Char)) (current : List Char),
      (current = [] ∨ ∃ a, current = a ++ ['.']) →
      (chunkLoop m frags chunks current).flatten
        = chunks.flatten ++ lstrip current
            ++ dotJoin (marks m frags current.length current.isEmpty) := by
  induction frags with
  | nil =>
    intro chunks current hcur
    simp only [chunkLoop, marks, dotJoin_nil, List.append_nil]
    rcases hcur with h | ⟨a, h⟩
    · subst h
      simp [lstrip]
    · subst h
      rw [if_neg (by simp), List.flatten_append]
      simp only [List.flatten_cons, List.flatten_nil, List.append_nil]
      rw [strip_eq_lstrip (Or.inr ⟨a, rfl⟩)]
  | cons s rest ih =>
    intro chunks current hcur
    simp only [chunkLoop, marks]
    by_cases hlt : current.length + s.length < m
    · rw [if_pos hlt, if_pos hlt]
      rw [ih chunks (current ++ s ++ ['.']) (Or.inr ⟨current ++ s, rfl⟩)]
      rw [show (current ++ s ++ ['.']).length = current.length + s.length + 1 by
            simp [List.length_append]; omega,
        show (current ++ s ++ ['.']).isEmpty = false from isEmpty_append_dot (current ++ s),
        dotJoin_cons, lstrip_append_step current s hcur]
      simp [List.append_assoc]
    · rw [if_neg hlt, if_neg hlt]
      rw [ih (chunks ++ [strip current]) (s ++ ['.']) (Or.inr ⟨s, rfl⟩)]
      rw [List.flatten_append]
      simp only [List.flatten_cons, List.flatten_nil, List.append_nil]
      rw [show (s ++ ['.'] : List Char).length = s.length + 1 by simp,
        isEmpty_append_dot s, dotJoin_cons,
        show (s ++ ['.'] : List Char) = s ++ '.' :: [] from rfl, lstrip_append_dot,
        strip_eq_lstrip hcur]
      simp [List.append_assoc]

theorem marks_length (m : Nat) (frags : List (List Char)) :
    ∀ (k : Nat) (b : Bool), (marks m frags k b).length = frags.length := by
  induction frags with
  | nil => intro k b; rfl
  | cons s rest ih =>
    intro k b
    simp only [marks]
    split
    · simp [ih]
    · simp [ih]

theorem marks_strip_getD (m : Nat) (frags : List (List Char)) :
    ∀ (k : Nat) (b : Bool) (i : Nat),
      strip ((marks m frags k b).getD i []) = strip (frags.getD i []) := by
  induction frags with
  | nil => intro k b i; rfl
  | cons s rest ih =>
    intro k b i
    simp only [marks]
    split
    · cases i with
      | zero =>
        simp only [List.getD_cons_zero]
        split
        · exact strip_lstrip s
        · rfl
      | succ i => simpa [List.getD_cons_succ] using ih _ false i
    · cases i with
      | zero => simpa [List.getD_cons_zero] using strip_lstrip s
      | succ i => simpa [List.getD_cons_succ] using ih _ false i

theorem lstrip_not_mem_dot {s : List Char} (h : '.' ∉ s) : '.' ∉ lstrip s :=
  fun hm => h ((List.dropWhile_sublist _).mem hm)

theorem marks_not_dot (m : Nat) (frags : List (List Char)) :
    ∀ (k : Nat) (b : Bool), (∀ s ∈ frags, '.' ∉ s) →
      ∀ t ∈ marks m frags k b, '.' ∉ t := by
  induction frags with
  | nil => intro k b _ t ht; exact absurd ht (by simp [marks])
  | cons s rest ih =>
    intro k b hall t ht
    have hs : '.' ∉ s := hall s (List.mem_cons_self s rest)
    have hrest : ∀ u ∈ rest, '.' ∉ u := fun u hu => hall u (List.mem_cons_of_mem s hu)
    simp only [marks] at ht
    split at ht
    · rcases List.mem_cons.mp ht with h | h
      · subst h
        split
        · exact lstrip_not_mem_dot hs
        · exact hs
      · exact ih _ false hrest t h
    · rcases List.mem_cons.mp ht with h | h
      · subst h; exact lstrip_not_mem_dot hs
      · exact ih _ false hrest t h

theorem chunk_text_flatten (text : List Char) (m : Nat) :
    (chunk_text text m).flatten = dotJoin (marks m (splitOnDot text) 0 true) := by
  simpa using chunkLoop_flatten m (splitOnDot text) [] [] (Or.inl rfl)

theorem chunk_text_ne_nil (text : List Char) (m : Nat) :
    chunk_text text m ≠ [] := by
  unfold chunk_text
  rcases hsplit : splitOnDot text with _ | ⟨f, rest⟩
  · exact absurd hsplit (splitOnDot_ne_nil text)
  · simp only [chunkLoop]
    split
    · exact chunkLoop_ne_nil m rest [] ([] ++ f ++ ['.']) ⟨[] ++ f, by simp⟩
    · exact chunkLoop_ne_nil m rest [strip []] (f ++ ['.']) ⟨f, rfl⟩

theorem chunkLoop_length_bound (m : Nat) (S : List (List Char)) (frags : List (List Char)) :
    ∀ (chunks : List (List Char)) (current : List Char),
      (∀ s ∈ frags, s ∈ S) →
      (∀ c ∈ chunks, c.length ≤ m ∨ ∃ s ∈ S, m ≤ s.length ∧ c = strip (s ++ ['.'])) →
      (current.length ≤ m ∨ ∃ s ∈ S, m ≤ s.length ∧ current = s ++ ['.']) →
      ∀ c ∈ chunkLoop m frags chunks current,
        c.length ≤ m ∨ ∃ s ∈ S, m ≤ s.length ∧ c = strip (s ++ ['.']) := by
  induction frags with
  | nil =>
    intro chunks current _ hch hcur c hc
    simp only [chunkLoop] at hc
    split at hc
    · exact hch c hc
    · rcases List.mem_append.mp hc with h | h
      · exact hch c h
      · have hc' : c = strip current := by simpa using h
        subst hc'
        rcases hcur with h | ⟨s, hs, hms, hcur⟩
        · exact Or.inl (le_trans (strip_length_le current) h)
        · exact Or.inr ⟨s, hs, hms, by rw [hcur]⟩
  | cons s rest ih =>
    intro chunks current hfr hch hcur c hc
    have hs : s ∈ S := hfr s (List.mem_cons_self s rest)
    have hrest : ∀ u ∈ rest, u ∈ S := fun u hu => hfr u (List.mem_cons_of_mem s hu)
    simp only [chunkLoop] at hc
    split at hc
    case isTrue hlt =>
      refine ih chunks (current ++ s ++ ['.']) hrest hch (Or.inl ?_) c hc
      simp only [List.length_append, List.length_cons, List.length_nil]
      omega
    case isFalse hlt =>
      refine ih (chunks ++ [strip current]) (s ++ ['.']) hrest ?_ ?_ c hc
      · intro c' hc'
        rcases List.mem_append.mp hc' with h | h
        · exact hch c' h
        · have hc'' : c' = strip current := by simpa using h
          subst hc''
          rcases hcur with h | ⟨u, hu, hmu, hcur⟩
          · exact Or.inl (le_trans (strip_length_le current) h)
          · exact Or.inr ⟨u, hu, hmu, by rw [hcur]⟩
      · by_cases hsl : s.length < m
        · exact Or.inl (by simp only [List.length_append, List.length_cons, List.length_nil]; omega)
        · exact Or.inr ⟨s, hs, by omega, rfl⟩

/-- C2 (amended): every chunk produced by `chunk_text` has length at most the
configured maximum, except when a single sentence fragment already has length
at least the maximum; such a fragment becomes its own chunk (with the
re-appended `"."` and surrounding whitespace stripped) without further
subdivision. -/
theorem chunk_text_length_bound (text : List Char) (m : Nat) :
    ∀ c ∈ chunk_text text m,
      c.length ≤ m ∨ ∃ s ∈ splitOnDot text, m ≤ s.length ∧ c = strip (s ++ ['.']) :=
  chunkLoop_length_bound m (splitOnDot text) (splitOnDot text) [] []
    (fun _ hu => hu) (by intro c hc; exact absurd hc (List.not_mem_nil c))
    (Or.inl (Nat.zero_le m))

/-- C2 (counterexample to the claim as stated): with maximum 2, the text
`"a"` produces the single chunk `"a."`, whose length 2 reaches the maximum,
although no sentence fragment of `"a"` has length at least 2 — the claim
that a chunk of length `≥ max` only arises from an oversized fragment is
false on the code. -/
theorem chunk_text_length_counterexample :
    (∃ c ∈ chunk_text ['a'] 2, 2 ≤ c.length) ∧
      ∀ s ∈ splitOnDot ['a'], s.length < 2 := by decide

/-- Witness for the amended C2 bound at the concrete input `"a"`, max 2. -/
theorem chunk_text_length_bound_witness :
    (['a', '.'] : List Char).length ≤ 2 ∨
      ∃ s ∈ splitOnDot ['a'], 2 ≤ s.length ∧ ['a', '.'] = strip (s ++ ['.']) :=
  chunk_text_length_bound ['a'] 2 ['a', '.'] (by decide)

theorem chunkLoop_all_ne_nil (m : Nat) (frags : List (List Char)) :
    ∀ (ch : List (List Char)) (cur : List Char),
      (∃ a, cur = a ++ ['.']) → (∀ c ∈ ch, c ≠ []) →
      ∀ c ∈ chunkLoop m frags ch cur, c ≠ [] := by
  induction frags with
  | nil =>
    intro ch cur ⟨a, ha⟩ hch c hc
    subst ha
    simp only [chunkLoop] at hc
    rw [if_neg (by simp)] at hc
    rcases List.mem_append.mp hc with h | h
    · exact hch c h
    · have : c = strip (a ++ ['.']) := by simpa using h
      rw [this]
      exact strip_append_dot_ne_nil a
  | cons s rest ih =>
    intro ch cur hcur hch c hc
    simp only [chunkLoop] at hc
    split at hc
    · exact ih ch (cur ++ s ++ ['.']) ⟨cur ++ s, rfl⟩ hch c hc
    · refine ih (ch ++ [strip cur]) (s ++ ['.']) ⟨s, rfl⟩ ?_ c hc
      intro c' hc'
      rcases List.mem_append.mp hc' with h | h
      · exact hch c' h
      · obtain ⟨a, ha⟩ := hcur
        have : c' = strip cur := by simpa using h
        rw [this, ha]
        exact strip_append_dot_ne_nil a

/-- C5 (amended): every chunk produced by `chunk_text` is non-empty, except
that the very first chunk is the empty string exactly when the first sentence
fragment alone already has length at least the maximum (the first flush then
strips an empty buffer). -/
theorem chunk_text_nonempty (text : List Char) (m : Nat) :
    (∀ c ∈ (chunk_text text m).tail, c ≠ []) ∧
    ((chunk_text text m).head? = some [] ↔ m ≤ ((splitOnDot text).getD 0 []).length) := by
  unfold chunk_text
  rcases hsplit : splitOnDot text with _ | ⟨f, rest⟩
  · exact absurd hsplit (splitOnDot_ne_nil text)
  · simp only [List.getD_cons_zero, chunkLoop]
    by_cases hf : ([] : List Char).length + f.length < m
    · rw [if_pos hf]
      have hall := chunkLoop_all_ne_nil m rest [] ([] ++ f ++ ['.'])
        ⟨[] ++ f, rfl⟩ (by intro c hc; exact absurd hc (List.not_mem_nil c))
      constructor
      · intro c hc
        exact hall c (List.mem_of_mem_tail hc)
      · constructor
        · intro hhead
          rcases hL : chunkLoop m rest [] ([] ++ f ++ ['.']) with _ | ⟨c, cs⟩
          · exact absurd hL (chunkLoop_ne_nil m rest [] ([] ++ f ++ ['.']) ⟨[] ++ f, rfl⟩)
          · rw [hL] at hhead
            have hc : c = [] := by simpa using hhead.symm
            exact absurd hc.symm (hall c (hL ▸ List.mem_cons_self c cs)).symm
        · intro hm
          exact absurd hm (by simp only [List.length_nil, Nat.zero_add] at hf; omega)
    · rw [if_neg hf]
      have hrw : chunkLoop m rest ([] ++ [strip []]) (f ++ ['.'])
          = [strip []] ++ chunkLoop m rest [] (f ++ ['.']) := by
        simpa using chunkLoop_append m rest [strip []] [] (f ++ ['.'])
      rw [hrw]
      constructor
      · intro c hc
        have hc' : c ∈ chunkLoop m rest [] (f ++ ['.']) := by
          simpa [strip_nil] using hc
        exact chunkLoop_all_ne_nil m rest [] (f ++ ['.']) ⟨f, rfl⟩
          (by intro c' hc'; exact absurd hc' (List.not_mem_nil c')) c hc'
      · simp only [strip_nil, List.singleton_append, List.head?_cons]
        constructor
        · intro _
          simp only [List.length_nil, Nat.zero_add] at hf
          omega
        · intro _; trivial

/-- C5 (counterexample to the claim as stated): with maximum 2 the text
`"abc"` produces the chunk list `["", "abc."]` — its first chunk is the
empty string, so not every produced chunk is non-empty. -/
theorem chunk_text_nonempty_counterexample :
    ¬ (∀ c ∈ chunk_text ['a', 'b', 'c'] 2, c ≠ []) := by decide

/-- Witness for the amended C5 at the concrete input `"abc"`, max 2: the
(sole) tail chunk `"abc."` is non-empty and the head chunk is empty. -/
theorem chunk_text_nonempty_witness :
    (['a', 'b', 'c', '.'] : List Char) ≠ [] ∧
      (chunk_text ['a', 'b', 'c'] 2).head? = some [] :=
  ⟨(chunk_text_nonempty ['a', 'b', 'c'] 2).1 ['a', 'b', 'c', '.'] (by decide),
   (chunk_text_nonempty ['a', 'b', 'c'] 2).2.mpr (by decide)⟩

/-- C6 (amended): a text containing no `"."` terminator produces exactly one
chunk — the whole text with `"."` appended, whitespace-stripped — when its
length is below the maximum; this includes the empty and whitespace-only
texts, which produce the single chunk `"."` rather than zero chunks.  When
such a text has length at least the maximum it produces two chunks, the
first of which is empty. -/
theorem chunk_text_no_terminator (text : List Char) (m : Nat) (h : '.' ∉ text) :
    chunk_text text m =
      if text.length < m then [strip (text ++ ['.'])]
      else [[], strip (text ++ ['.'])] := by
  unfold chunk_text
  rw [splitOnDot_of_not_mem h]
  simp only [chunkLoop, List.length_nil, Nat.zero_add, List.nil_append]
  by_cases hlt : text.length < m
  · rw [if_pos hlt, if_pos hlt]
    rw [if_neg (by simp)]
  · rw [if_neg hlt, if_neg hlt]
    rw [if_neg (by simp)]
    rfl

/-- C6 (counterexample to the claim as stated): the empty text produces the
single chunk `"."`, not zero chunks — `"".split(".")` is `[""]`, the loop
sets `current = "."`, and the final `if current:` flush appends it. -/
theorem chunk_text_no_terminator_counterexample :
    chunk_text [] 1500 = [['.']] ∧ (chunk_text [] 1500).length ≠ 0 := by decide

/-- Witness for the amended C6 at the concrete no-terminator input `"ab"`
with the default maximum 1500. -/
theorem chunk_text_no_terminator_witness :
    chunk_text ['a', 'b'] 1500 = [['a', 'b', '.']] :=
  (chunk_text_no_terminator ['a', 'b'] 1500 (by decide)).trans (by decide)

/-- C7: round-trip of the segmentation.  Splitting the concatenation of the
produced chunks back on `"."` yields one fragment per original sentence
fragment plus one trailing empty fragment coming from the final re-appended
`"."`; after undoing the whitespace trim (comparing fragments up to `strip`)
the original sentence sequence of `text.split(".")` is recovered, position by
position. -/
theorem chunk_text_roundtrip (text : List Char) (m : Nat) :
    (splitOnDot (chunk_text text m).flatten).length = (splitOnDot text).length + 1 ∧
    (splitOnDot (chunk_text text m).flatten).getD (splitOnDot text).length [] = [] ∧
    ∀ i, i < (splitOnDot text).length →
      strip ((splitOnDot (chunk_text text m).flatten).getD i [])
        = strip ((splitOnDot text).getD i []) := by
  have hnd : ∀ s ∈ splitOnDot text, '.' ∉ s := mem_splitOnDot_not_dot text
  have hmnd : ∀ t ∈ marks m (splitOnDot text) 0 true, '.' ∉ t :=
    marks_not_dot m (splitOnDot text) 0 true hnd
  have hsd : splitOnDot (chunk_text text m).flatten
      = marks m (splitOnDot text) 0 true ++ [[]] := by
    rw [chunk_text_flatten text m]
    exact splitOnDot_dotJoin _ hmnd
  have hlen := marks_length m (splitOnDot text) 0 true
  refine ⟨?_, ?_, ?_⟩
  · rw [hsd]
    simp [hlen]
  · rw [hsd, List.getD_append_right _ _ _ _ (by rw [hlen])]
    rw [hlen]
    simp
  · intro i hi
    rw [hsd, List.getD_append _ _ _ _ (by rw [hlen]; exact hi)]
    exact marks_strip_getD m (splitOnDot text) 0 true i

/-- Witness for C7 at the concrete input `" a.b"` (leading whitespace is
trimmed into the chunk, so the round-trip holds only up to `strip`). -/
theorem chunk_text_roundtrip_witness :
    strip ((splitOnDot (chunk_text [' ', 'a', '.', 'b'] 1500).flatten).getD 0 [])
      = strip ((splitOnDot [' ', 'a', '.', 'b']).getD 0 []) :=
  (chunk_text_roundtrip [' ', 'a', '.', 'b'] 1500).2.2 0 (by decide)

/-- C1: uploading a second document whose extracted text is identical to an
already uploaded one (the filenames may differ) answers with the message
"File already processed", leaves the record collection unchanged, and makes
no embedding or upsert call. -/
theorem upload_dedup (hash : List Char → List Char) (embed : List Char → List ℚ)
    (st : List Record) (f1 f2 : UploadFile) (t : List Char)
    (h1 : extract_text f1 = .ok t) (h2 : extract_text f2 = .ok t)
    (m1 : String) (st1 : List Record) (log1 : List ExtCall)
    (hup : upload_file hash embed st f1 = (.ok (m1, st1), log1)) :
    upload_file hash embed st1 f2 = (.ok ("File already processed", st1), []) := by
  have hchunks := chunk_text_ne_nil t 1500
  simp only [upload_file, h1] at hup
  simp only [upload_file, h2]
  split at hup
  case isTrue hdup =>
    simp only [Prod.mk.injEq, Except.ok.injEq] at hup
    obtain ⟨⟨_, hst⟩, _⟩ := hup
    subst hst
    rw [if_pos hdup]
  case isFalse hdup =>
    simp only [Prod.mk.injEq, Except.ok.injEq] at hup
    obtain ⟨⟨_, hst⟩, _⟩ := hup
    rcases hc : chunk_text t 1500 with _ | ⟨c, cs⟩
    · exact absurd hc hchunks
    · have hmem : Record.mk (embed c) c (hash t) ∈ st1 := by
        rw [← hst]
        apply List.mem_append_right
        rw [hc]
        simp
      rw [if_pos (List.any_eq_true.mpr ⟨_, hmem, by simp⟩)]

/-- Witness for C1: after uploading `"a.txt"` with content `"hi"` into the
empty collection, uploading the same content again is answered with
"File already processed" and no state change or external call. -/
theorem upload_dedup_witness :
    upload_file (fun l => l) (fun _ => []) [demoRecord] demoFile
      = (.ok ("File already processed", [demoRecord]), []) :=
  upload_dedup (fun l => l) (fun _ => []) [] demoFile demoFile ['h', 'i']
    (by rfl) (by rfl)
    "File processed and 1 chunks stored." [demoRecord]
    [ExtCall.embed [['h', 'i', '.']], ExtCall.upsert 1] (by rfl)

/-- C3: `ask` against the empty collection returns exactly the answer
"No relevant context found." with the empty context, and posts nothing to
the chat-completion model. -/
theorem ask_empty_collection (sim : List ℚ → List ℚ → ℚ) (embed : List Char → List ℚ)
    (post : ChatPayload → Except NetError HttpResp) (question : List Char) :
    ask sim embed post [] question
      = (.ok ("No relevant context found.".data, []), []) := by
  rfl

/-- C4: against a non-empty collection the retrieval step returns at most 3
records (and at least one), ordered by descending similarity to the
question's embedding, and any successful response carries as context the
newline-join of those records' texts in retrieval order. -/
theorem ask_populated (sim : List ℚ → List ℚ → ℚ) (embed : List Char → List ℚ)
    (post : ChatPayload → Except NetError HttpResp)
    (st : List Record) (question : List Char) (hst : st ≠ []) :
    (qdrantSearch sim st (embed question) 3).length ≤ 3 ∧
    qdrantSearch sim st (embed question) 3 ≠ [] ∧
    List.Sorted (simRel sim (embed question)) (qdrantSearch sim st (embed question) 3) ∧
    ∀ answer context calls,
      ask sim embed post st question = (.ok (answer, context), calls) →
      context = List.intercalate ['\n']
        ((qdrantSearch sim st (embed question) 3).map (fun hit => hit.text)) := by
  have hlen : (qdrantSearch sim st (embed question) 3).length = min 3 st.length := by
    simp [qdrantSearch, List.length_take, List.length_insertionSort]
  have hne : qdrantSearch sim st (embed question) 3 ≠ [] := by
    rw [← List.length_pos, hlen]
    have := List.length_pos.mpr hst
    omega
  refine ⟨by rw [hlen]; omega, hne, ?_, ?_⟩
  · exact List.Pairwise.sublist (List.take_sublist 3 _)
      (List.sorted_insertionSort (simRel sim (embed question)) st)
  · intro answer context calls h
    have hemp : (qdrantSearch sim st (embed question) 3).isEmpty = false :=
      List.isEmpty_eq_false.mpr hne
    simp only [ask] at h
    rw [if_neg (by rw [hemp]; simp)] at h
    rcases hq : query_huggingface_chat post question
        (List.intercalate ['\n']
          ((qdrantSearch sim st (embed question) 3).map (fun hit => hit.text)))
      with ⟨res, calls'⟩
    rw [hq] at h
    cases res with
    | error e => simp at h
    | ok a =>
      simp only [Prod.mk.injEq, Except.ok.injEq] at h
      exact h.1.2.symm

/-- Witness for C4 on the singleton collection holding `demoRecord`: the
returned context is that record's text. -/
theorem ask_populated_witness :
    (['h', 'i', '.'] : List Char)
      = List.intercalate ['\n']
          ((qdrantSearch (fun _ _ => 0) [demoRecord] [] 3).map (fun hit => hit.text)) :=
  (ask_populated (fun _ _ => 0) (fun _ => []) (fun _ => .ok ⟨200, [], some ['o', 'k']⟩)
      [demoRecord] ['q'] (by decide)).2.2.2 ['o', 'k'] ['h', 'i', '.']
    [mkChatPayload ['q'] ['h', 'i', '.']] (by rfl)

/-- C8: a file whose name ends in neither ".txt" nor ".pdf" (for example a
".csv") is rejected with HTTP 400 and the detail "Only PDF or TXT supported"
— the message naming only PDF and TXT — and nothing is chunked, embedded,
stored or called externally. -/
theorem upload_unsupported (hash : List Char → List Char) (embed : List Char → List ℚ)
    (st : List Record) (file : UploadFile)
    (ht : endsWith file.filename txtSuffix = false)
    (hp : endsWith file.filename pdfSuffix = false) :
    upload_file hash embed st file
      = (.error ⟨400, "Only PDF or TXT supported"⟩, []) := by
  have hex : extract_text file = .error ⟨400, "Only PDF or TXT supported"⟩ := by
    simp [extract_text, ht, hp]
  simp [upload_file, hex]

/-- Witness for C8 at the concrete file `"d.csv"`. -/
theorem upload_unsupported_witness :
    upload_file (fun l => l) (fun _ => []) [] demoCsv
      = (.error ⟨400, "Only PDF or TXT supported"⟩, []) :=
  upload_unsupported (fun l => l) (fun _ => []) [] demoCsv (by decide) (by decide)

/-- C9: a failing or malformed chat-completion call is surfaced verbatim: an
exception from the post propagates unchanged, and a malformed response body
becomes the literal "Error: status - text" answer built from that response's
status and text; in both cases exactly one post is performed — no retry and
no recovery into a different result. -/
theorem chat_failure_surfaced (post : ChatPayload → Except NetError HttpResp)
    (question context : List Char) :
    (∀ e, post (mkChatPayload question context) = .error e →
      query_huggingface_chat post question context
        = (.error e, [mkChatPayload question context])) ∧
    (∀ resp, post (mkChatPayload question context) = .ok resp → resp.content = none →
      query_huggingface_chat post question context
        = (.ok (errorText resp), [mkChatPayload question context])) := by
  constructor
  · intro e he
    simp [query_huggingface_chat, he]
  · intro resp hr hc
    simp [query_huggingface_chat, hr, hc]

/-- Witness for C9 at a concrete post returning status 500 with an
unparsable body. -/
theorem chat_failure_surfaced_witness :
    query_huggingface_chat (fun _ => .ok demoResp) ['q'] ['c']
      = (.ok (errorText demoResp), [mkChatPayload ['q'] ['c']]) :=
  (chat_failure_surfaced (fun _ => .ok demoResp) ['q'] ['c']).2 demoResp rfl rfl

theorem endsWith_unique {l s₁ s₂ : List Char}
    (h₁ : endsWith l s₁ = true) (h₂ : endsWith l s₂ = true)
    (hlen : s₁.length = s₂.length) : s₁ = s₂ := by
  unfold endsWith at h₁ h₂
  have p₁ := List.isPrefixOf_iff_prefix.mp h₁
  have p₂ := List.isPrefixOf_iff_prefix.mp h₂
  have hle : s₁.reverse.length ≤ s₂.reverse.length := by simp [hlen]
  have hpre := List.prefix_of_prefix_length_le p₁ p₂ hle
  have heq := List.IsPrefix.eq_of_length hpre (by simp [hlen])
  simpa using congrArg List.reverse heq

/-- C10: `extract_text` dispatches solely on the filename suffix,
case-sensitively, and never on the declared media type: a name ending
".txt" is decoded as UTF-8 text, a name ending ".pdf" goes through PDF page
extraction, changing the declared media type never changes the result, and a
name ending in the upper-case ".TXT" falls through to the 400
unsupported-format rejection. -/
theorem extract_dispatch (file : UploadFile) :
    (endsWith file.filename txtSuffix = true →
      extract_text file = .ok file.txtContent) ∧
    (endsWith file.filename pdfSuffix = true →
      extract_text file = .ok ((file.pdfPages.map (fun p => p ++ ['\n'])).flatten)) ∧
    (∀ ct, extract_text (withContentType file ct) = extract_text file) ∧
    (endsWith file.filename ['.', 'T', 'X', 'T'] = true →
      extract_text file = .error ⟨400, "Only PDF or TXT supported"⟩) := by
  refine ⟨?_, ?_, ?_, ?_⟩
  · intro h
    simp [extract_text, h]
  · intro h
    have ht : endsWith file.filename txtSuffix = false := by
      cases h' : endsWith file.filename txtSuffix
      · rfl
      · exact absurd (endsWith_unique h' h rfl) (by decide)
    simp [extract_text, ht, h]
  · intro ct
    rfl
  · intro h
    have ht : endsWith file.filename txtSuffix = false := by
      cases h' : endsWith file.filename txtSuffix
      · rfl
      · exact absurd (endsWith_unique h' h rfl) (by decide)
    have hp : endsWith file.filename pdfSuffix = false := by
      cases h' : endsWith file.filename pdfSuffix
      · rfl
      · exact absurd (endsWith_unique h' h rfl) (by decide)
    simp [extract_text, ht, hp]

/-- Witness for C10 at the concrete file `"a.TXT"`: rejected with 400. -/
theorem extract_dispatch_witness :
    extract_text demoUpper = .error ⟨400, "Only PDF or TXT supported"⟩ :=
  (extract_dispatch demoUpper).2.2.2 (by decide)

end RagApp
